import Mathlib

/-!
# fluxkustgraph: collecting Flux Kustomizations and rendering a Mermaid class diagram

A shallow embedding of `main.go`.

* Go strings are modelled as Lean `String`s, i.e. sequences of Unicode code points (runes).
  The separator `---`, the suffix `.yaml` and the API-version prefix are ASCII, so splitting and
  prefix/suffix tests on runes coincide with the byte-level ones on UTF-8 text.
* `map[string]Kustomization` is modelled as an association list with pairwise distinct keys
  (`KMap`).  Go leaves the iteration order of `range` over a map unspecified, so the renderer
  takes the entries in the order in which `range` yields them, and statements about a map
  quantify over every permutation of its entries.
* `yaml.Unmarshal` (gopkg.in/yaml.v3) is a library function: it is a parameter
  `decode : String → Option Kustomization` (`none` for a non-nil error, `some k` for the record
  left in the freshly zeroed `k` when the error is nil).
* `filepath.Walk` is a library function driven by the file system: the file system is the
  sequence of callback invocations the walk would make (`WalkEntry`), in traversal order.
-/

namespace Fluxkustgraph

/-! ## Data model -/

/-- The `metadata` block of a Kustomization. -/
structure Metadata where
  Name : String
  Namespace : String
deriving DecidableEq, Repr, Inhabited

/-- One element of `spec.dependsOn`. -/
structure DependsOnRef where
  Name : String
deriving DecidableEq, Repr, Inhabited

/-- The `spec.sourceRef` block. -/
structure SourceRef where
  Kind : String
  Name : String
deriving DecidableEq, Repr, Inhabited

/-- The `spec` block of a Kustomization. -/
structure Spec where
  Interval : String
  ServiceAccountName : String
  DependsOn : List DependsOnRef
  SourceRef : SourceRef
  Path : String
  Prune : Bool
deriving DecidableEq, Repr, Inhabited

/-- The `Kustomization` struct of `main.go`. -/
structure Kustomization where
  ApiVersion : String
  Metadata : Metadata
  Spec : Spec
deriving DecidableEq, Repr, Inhabited

/-- A Go `error` value, identified by its message. -/
structure GoError where
  msg : String
deriving DecidableEq, Repr, Inhabited

/-- A `map[string]Kustomization` as an association list. -/
abbrev KMap := List (String × Kustomization)

/-- The map assignment `m[key] = v`: overwrite the entry of `key` when there is one, add a new
entry otherwise. -/
def mapAssign : KMap → String → Kustomization → KMap
  | [], key, v => [(key, v)]
  | (key', v') :: rest, key, v =>
    if key' = key then (key, v) :: rest else (key', v') :: mapAssign rest key v

/-- The map lookup `m[key]` with its presence flag. -/
def mapLookup : KMap → String → Option Kustomization
  | [], _ => none
  | (key', v') :: rest, key => if key' = key then some v' else mapLookup rest key

/-- The keys of a map. -/
def mapKeys (m : KMap) : List String := m.map Prod.fst

/-! ## Library functions of package `strings` -/

/-- Go `strings.HasPrefix(s, pre)`. -/
def HasPrefix (s pre : String) : Bool := pre.data.isPrefixOf s.data

/-- Go `strings.HasSuffix(s, suffix)`. -/
def HasSuffix (s suffix : String) : Bool := suffix.data.isSuffixOf s.data

/-- The scanning loop of `strings.Split` for a non-empty separator: `skip` counts the characters
of a separator occurrence still to be stepped over, `cur` is the current piece, reversed. -/
def splitLoop (sep : List Char) : Nat → List Char → List Char → List String
  | _, cur, [] => [String.mk cur.reverse]
  | skip + 1, cur, _ :: rest => splitLoop sep skip cur rest
  | 0, cur, c :: rest =>
    if sep.isPrefixOf (c :: rest) then
      String.mk cur.reverse :: splitLoop sep (sep.length - 1) [] rest
    else
      splitLoop sep 0 (c :: cur) rest

/-- Go `strings.Split(s, sep)`: the pieces of `s` between the non-overlapping occurrences of
`sep`, found from left to right; for an empty `sep`, one piece per character. -/
def Split (s sep : String) : List String :=
  if sep.data = [] then s.data.map fun c => String.mk [c]
  else splitLoop sep.data 0 [] s.data

/-! ## `main.go` -/

/-- The body of the loop `for _, doc := range docs` of `findAndParseYAMLs`, for one `doc`:
a fresh `k` is decoded and stored under its name when decoding succeeds, the name is not empty
and the API version has the Flux prefix. -/
def processDoc (decode : String → Option Kustomization) (kustomizations : KMap) (doc : String) :
    KMap :=
  match decode doc with
  | some k =>
    if k.Metadata.Name ≠ "" then
      if HasPrefix k.ApiVersion "kustomize.toolkit.fluxcd.io" then
        mapAssign kustomizations k.Metadata.Name k
      else kustomizations
    else kustomizations
  | none => kustomizations

/-- The loop `for _, doc := range docs` of `findAndParseYAMLs`. -/
def processDocs (decode : String → Option Kustomization) : KMap → List String → KMap
  | kustomizations, [] => kustomizations
  | kustomizations, doc :: docs => processDocs decode (processDoc decode kustomizations doc) docs

/-- One invocation of the callback of `filepath.Walk`: the `err` argument, `info.IsDir()`,
`info.Name()` and what `ioutil.ReadFile(path)` returns for this entry. -/
structure WalkEntry where
  err : Option GoError
  isDir : Bool
  name : String
  readFile : Except GoError String

/-- The callback passed to `filepath.Walk` in `findAndParseYAMLs`: the map after the call and
the error the callback returns. -/
def walkFn (decode : String → Option Kustomization) (kustomizations : KMap) (e : WalkEntry) :
    KMap × Option GoError :=
  match e.err with
  | some err => (kustomizations, some err)
  | none =>
    if !e.isDir && HasSuffix e.name ".yaml" then
      match e.readFile with
      | .error err => (kustomizations, some err)
      | .ok content => (processDocs decode kustomizations (Split content "---"), none)
    else (kustomizations, none)

/-- The traversal of `filepath.Walk` with the callback `walkFn`: the callback is invoked on the
entries in order and the first error it returns ends the walk and is the walk's error. -/
def walk (decode : String → Option Kustomization) : KMap → List WalkEntry → KMap × Option GoError
  | kustomizations, [] => (kustomizations, none)
  | kustomizations, e :: rest =>
    match walkFn decode kustomizations e with
    | (kustomizations', some err) => (kustomizations', some err)
    | (kustomizations', none) => walk decode kustomizations' rest

/-- The function `findAndParseYAMLs`: the pair `kustomizations, err` it returns, for the
callback invocations `entries` of the walk of `dir`. -/
def findAndParseYAMLs (decode : String → Option Kustomization) (entries : List WalkEntry) :
    KMap × Option GoError :=
  walk decode [] entries

/-- The mapping function handed to `strings.Map` in `sanitizeName`. -/
def sanitizeRune (r : Char) : Char :=
  if ('A' ≤ r ∧ r ≤ 'Z') ∨ ('a' ≤ r ∧ r ≤ 'z') ∨ ('0' ≤ r ∧ r ≤ '9') then r else '_'

/-- The function `sanitizeName`: `strings.Map` applies the mapping to every rune in order. -/
def sanitizeName (name : String) : String :=
  String.mk (name.data.map sanitizeRune)

/-- The loop `for _, dep := range k.Spec.DependsOn` of `generateMermaidDiagram`, writing to the
builder `diagram`. -/
def writeEdges (safeName : String) : String → List DependsOnRef → String
  | diagram, [] => diagram
  | diagram, dep :: deps =>
    let safeDepName := sanitizeName dep.Name
    writeEdges safeName
      (diagram ++ ("    " ++ safeName ++ " --> " ++ safeDepName ++ " : depends on\n")) deps

/-- The body of the loop `for _, k := range kustomizations` of `generateMermaidDiagram`. -/
def writeResource (diagram : String) (k : Kustomization) : String :=
  let safeName := sanitizeName k.Metadata.Name
  let diagram := diagram ++ ("    class " ++ safeName ++ " \x7b\n")
  let diagram := diagram ++ ("        +string name " ++ k.Metadata.Name ++ "\n")
  let diagram := diagram ++ ("        +string namespace " ++ k.Metadata.Namespace ++ "\n")
  let diagram := diagram ++ "    \x7d\n"
  writeEdges safeName diagram k.Spec.DependsOn

/-- The loop `for _, k := range kustomizations` of `generateMermaidDiagram`, over the entries in
the order `range` yields them. -/
def writeResources : String → List (String × Kustomization) → String
  | diagram, [] => diagram
  | diagram, (_, k) :: rest => writeResources (writeResource diagram k) rest

/-- The function `generateMermaidDiagram`, applied to the entries of the map in the order in
which `range` yields them. -/
def generateMermaidDiagram (kustomizations : List (String × Kustomization)) : String :=
  let diagram := ""
  let diagram := diagram ++ "classDiagram\n"
  writeResources diagram kustomizations

/-- What a run of `main` leaves behind: the text printed to standard output, the exit status,
and the arguments of the call of `ioutil.WriteFile`, when it is reached. -/
structure RunResult where
  stdout : String
  exitCode : Nat
  writeFileCall : Option (String × String)
deriving DecidableEq, Repr

/-- The function `main`, for the flag values `sourceDir` and `outputFile`: `walkOf dir` is the
sequence of callback invocations of the walk of `dir`, `rangeOrder m` the order in which `range`
yields the entries of `m` in this run, and `writeFile path text` the error of
`ioutil.WriteFile`. -/
def main (decode : String → Option Kustomization) (walkOf : String → List WalkEntry)
    (rangeOrder : KMap → List (String × Kustomization))
    (writeFile : String → String → Option GoError) (sourceDir outputFile : String) : RunResult :=
  if sourceDir = "" ∨ outputFile = "" then
    { stdout := "Source directory and output file path are required.\n", exitCode := 1,
      writeFileCall := none }
  else
    match findAndParseYAMLs decode (walkOf sourceDir) with
    | (_, some err) =>
      { stdout := "Error processing YAML files: " ++ err.msg ++ "\n", exitCode := 1,
        writeFileCall := none }
    | (kustomizations, none) =>
      let diagram := generateMermaidDiagram (rangeOrder kustomizations)
      match writeFile outputFile diagram with
      | some err =>
        { stdout := "Error writing output file: " ++ err.msg ++ "\n", exitCode := 1,
          writeFileCall := some (outputFile, diagram) }
      | none =>
        { stdout := "Mermaid class diagram generated successfully.\n", exitCode := 0,
          writeFileCall := some (outputFile, diagram) }

/-! ## Vocabulary of the specification -/

/-- The entry is a regular file whose name ends in `.yaml`. -/
def WalkEntry.isYamlFile (e : WalkEntry) : Bool :=
  !e.isDir && HasSuffix e.name ".yaml"

/-- The I/O error met at an entry: the entry cannot be visited, or it is a `.yaml` file that
cannot be read. -/
def WalkEntry.ioError (e : WalkEntry) : Option GoError :=
  match e.err with
  | some err => some err
  | none =>
    if e.isYamlFile then
      match e.readFile with
      | .error err => some err
      | .ok _ => none
    else none

/-- The document fragments of an entry: the pieces of the content of a readable `.yaml` file
around the occurrences of `---`; no fragment for any other entry. -/
def WalkEntry.docs (e : WalkEntry) : List String :=
  match e.err with
  | some _ => []
  | none =>
    if e.isYamlFile then
      match e.readFile with
      | .error _ => []
      | .ok content => Split content "---"
    else []

/-- The fragments of the entries visited before the first I/O error, in traversal order. -/
def processedDocs : List WalkEntry → List String
  | [] => []
  | e :: rest =>
    match e.ioError with
    | some _ => []
    | none => e.docs ++ processedDocs rest

/-- The fragment is accepted: it decodes to a record with a non-empty name and an API version
that starts with `kustomize.toolkit.fluxcd.io`. -/
def accepted (decode : String → Option Kustomization) (doc : String) : Bool :=
  match decode doc with
  | some k => decide (k.Metadata.Name ≠ "") && HasPrefix k.ApiVersion "kustomize.toolkit.fluxcd.io"
  | none => false

/-- The class block of a resource in the diagram. -/
def classBlock (k : Kustomization) : String :=
  "    class " ++ sanitizeName k.Metadata.Name ++ " \x7b\n        +string name " ++ k.Metadata.Name
    ++ "\n        +string namespace " ++ k.Metadata.Namespace ++ "\n    \x7d\n"

/-- The edge line of a resource named `name` for the dependency named `dep`. -/
def edgeLine (name dep : String) : String :=
  "    " ++ sanitizeName name ++ " --> " ++ sanitizeName dep ++ " : depends on\n"

/-- The edge lines of a resource, one per entry of `dependsOn`, in declared order. -/
def edgeLines (k : Kustomization) : List String :=
  k.Spec.DependsOn.map fun dep => edgeLine k.Metadata.Name dep.Name

/-- The text of a resource in the diagram: its class block, then its edge lines. -/
def resourceText (k : Kustomization) : String :=
  classBlock k ++ String.join (edgeLines k)

/-- The character is an ASCII letter or digit: its code point lies in `65..90` (`A-Z`),
`97..122` (`a-z`) or `48..57` (`0-9`), as the library predicate `Char.isAlphanum` tests. -/
def isAsciiAlnum (c : Char) : Bool := c.isAlphanum

/-! ## Sample inputs -/

/-- A Kustomization with the given API version, name, namespace and dependency names, all other
fields zero. -/
def mkKustomization (apiVersion name ns : String) (deps : List String) : Kustomization :=
  { ApiVersion := apiVersion
    Metadata := { Name := name, Namespace := ns }
    Spec := { Interval := "", ServiceAccountName := "", DependsOn := deps.map DependsOnRef.mk,
              SourceRef := { Kind := "", Name := "" }, Path := "", Prune := false } }

/-- A decoder for sample documents of the form `apiVersion|name|namespace|dep,dep,...`: a stand-in
for `yaml.Unmarshal` in concrete evaluations; any other shape is a decoding error. -/
def sampleDecode (doc : String) : Option Kustomization :=
  match Split doc "|" with
  | [apiVersion, name, ns, deps] =>
    some (mkKustomization apiVersion name ns (if deps = "" then [] else Split deps ","))
  | _ => none

/-- A readable regular file with the given name and content. -/
def sampleFile (name content : String) : WalkEntry :=
  { err := none, isDir := false, name := name, readFile := .ok content }

/-- A directory entry. -/
def sampleDir (name : String) : WalkEntry :=
  { err := none, isDir := true, name := name, readFile := .error { msg := "is a directory" } }

/-- A regular file that cannot be read. -/
def sampleUnreadable (name : String) : WalkEntry :=
  { err := none, isDir := false, name := name,
    readFile := .error { msg := "permission denied" } }

/-! ## Sanitisation lemmas -/

theorem sanitizeRune_eq_ite (c : Char) :
    sanitizeRune c = if isAsciiAlnum c then c else '_' := by
  have hA : ('A' : Char).val = 65 := rfl
  have hZ : ('Z' : Char).val = 90 := rfl
  have ha : ('a' : Char).val = 97 := rfl
  have hz : ('z' : Char).val = 122 := rfl
  have h0 : ('0' : Char).val = 48 := rfl
  have h9 : ('9' : Char).val = 57 := rfl
  unfold sanitizeRune isAsciiAlnum Char.isAlphanum Char.isAlpha Char.isUpper Char.isLower
    Char.isDigit
  simp only [Char.le_def, hA, hZ, ha, hz, h0, h9, ge_iff_le, Bool.or_eq_true, Bool.and_eq_true,
    decide_eq_true_eq, or_assoc]

theorem sanitizeRune_idem (c : Char) : sanitizeRune (sanitizeRune c) = sanitizeRune c := by
  by_cases h : ('A' ≤ c ∧ c ≤ 'Z') ∨ ('a' ≤ c ∧ c ≤ 'z') ∨ ('0' ≤ c ∧ c ≤ '9')
  · have h1 : sanitizeRune c = c := by unfold sanitizeRune; rw [if_pos h]
    rw [h1, h1]
  · have h1 : sanitizeRune c = '_' := by unfold sanitizeRune; rw [if_neg h]
    rw [h1]; decide

/-! ## Lemmas on the map model -/

theorem mapLookup_mapAssign (m : KMap) (key n : String) (v : Kustomization) :
    mapLookup (mapAssign m key v) n = if key = n then some v else mapLookup m n := by
  induction m with
  | nil => simp [mapAssign, mapLookup]
  | cons e rest ih =>
    obtain ⟨key', v'⟩ := e
    by_cases h : key' = key
    · subst h
      by_cases hn : key' = n <;> simp [mapAssign, mapLookup, hn]
    · by_cases hn : key' = n
      · subst hn
        have h2 : ¬ key = key' := fun hk => h hk.symm
        simp [mapAssign, mapLookup, h, h2]
      · simp [mapAssign, mapLookup, h, hn, ih]

theorem mem_mapKeys_mapAssign (m : KMap) (key n : String) (v : Kustomization) :
    n ∈ mapKeys (mapAssign m key v) ↔ n = key ∨ n ∈ mapKeys m := by
  induction m with
  | nil => simp [mapAssign, mapKeys]
  | cons e rest ih =>
    obtain ⟨key', v'⟩ := e
    unfold mapKeys at ih ⊢
    by_cases h : key' = key
    · subst h
      simp [mapAssign]
    · simp only [mapAssign, h, if_false, List.map_cons, List.mem_cons, ih]
      tauto

theorem nodup_mapKeys_mapAssign (m : KMap) (key : String) (v : Kustomization)
    (h : (mapKeys m).Nodup) : (mapKeys (mapAssign m key v)).Nodup := by
  induction m with
  | nil => simp [mapAssign, mapKeys]
  | cons e rest ih =>
    obtain ⟨key', v'⟩ := e
    have hk : key' ∉ mapKeys rest := (List.nodup_cons.mp h).1
    have hr : (mapKeys rest).Nodup := (List.nodup_cons.mp h).2
    by_cases hkey : key' = key
    · subst hkey
      simpa [mapAssign, mapKeys] using h
    · have hnot : key' ∉ mapKeys (mapAssign rest key v) := by
        rw [mem_mapKeys_mapAssign]
        rintro (h1 | h1)
        · exact hkey h1
        · exact hk h1
      have := ih hr
      simp only [mapAssign, hkey, if_false]
      exact List.nodup_cons.mpr ⟨hnot, this⟩

theorem mem_mapAssign (m : KMap) (key : String) (v : Kustomization) (e : String × Kustomization)
    (h : e ∈ mapAssign m key v) : e = (key, v) ∨ e ∈ m := by
  induction m with
  | nil => simpa [mapAssign] using h
  | cons e' rest ih =>
    obtain ⟨key', v'⟩ := e'
    by_cases hkey : key' = key
    · simp only [mapAssign, hkey, if_true, List.mem_cons] at h
      rcases h with h | h
      · exact Or.inl h
      · exact Or.inr (List.mem_cons_of_mem _ h)
    · simp only [mapAssign, hkey, if_false, List.mem_cons] at h
      rcases h with h | h
      · exact Or.inr (h ▸ List.mem_cons_self _ _)
      · rcases ih h with h1 | h1
        · exact Or.inl h1
        · exact Or.inr (List.mem_cons_of_mem _ h1)

theorem mem_mapKeys_iff_lookup (m : KMap) (n : String) :
    n ∈ mapKeys m ↔ ∃ k, mapLookup m n = some k := by
  induction m with
  | nil => simp [mapKeys, mapLookup]
  | cons e rest ih =>
    obtain ⟨key', v'⟩ := e
    unfold mapKeys at ih ⊢
    by_cases h : key' = n
    · subst h
      simp [mapLookup]
    · have h2 : ¬ n = key' := fun hk => h hk.symm
      simp [mapLookup, h, h2, ih]

theorem mapLookup_of_mem (m : KMap) (hnd : (mapKeys m).Nodup) (n : String) (k : Kustomization)
    (h : (n, k) ∈ m) : mapLookup m n = some k := by
  induction m with
  | nil => simp at h
  | cons e rest ih =>
    obtain ⟨key', v'⟩ := e
    have hk : key' ∉ mapKeys rest := (List.nodup_cons.mp hnd).1
    have hr : (mapKeys rest).Nodup := (List.nodup_cons.mp hnd).2
    rcases List.mem_cons.mp h with h1 | h1
    · cases h1
      simp [mapLookup]
    · have hne : key' ≠ n := by
        rintro rfl
        exact hk (List.mem_map.mpr ⟨(key', k), h1, rfl⟩)
      simp [mapLookup, hne, ih hr h1]

theorem mem_of_mapLookup (m : KMap) (n : String) (k : Kustomization)
    (h : mapLookup m n = some k) : (n, k) ∈ m := by
  induction m with
  | nil => simp [mapLookup] at h
  | cons e rest ih =>
    obtain ⟨key', v'⟩ := e
    by_cases hk : key' = n
    · subst hk
      simp [mapLookup] at h
      simp [h]
    · simp only [mapLookup, hk, if_false] at h
      exact List.mem_cons_of_mem _ (ih h)

/-! ## Lemmas on the collector -/

theorem processDoc_of_accepted (decode : String → Option Kustomization) (m : KMap) (doc : String)
    (k : Kustomization) (hk : decode doc = some k) (ha : accepted decode doc = true) :
    processDoc decode m doc = mapAssign m k.Metadata.Name k := by
  unfold accepted at ha
  rw [hk] at ha
  simp only [Bool.and_eq_true, decide_eq_true_eq] at ha
  unfold processDoc
  rw [hk]
  simp only [ha.1, ha.2, ne_eq, not_false_eq_true, if_true]

theorem processDoc_of_not_accepted (decode : String → Option Kustomization) (m : KMap)
    (doc : String) (ha : accepted decode doc = false) : processDoc decode m doc = m := by
  unfold accepted at ha
  unfold processDoc
  cases hk : decode doc with
  | none => rfl
  | some k =>
    rw [hk] at ha
    simp only [Bool.and_eq_false_iff, decide_eq_false_iff_not] at ha
    rcases ha with h | h
    · simp only [h, if_false]
    · simp only [h]
      split <;> simp

theorem accepted_iff (decode : String → Option Kustomization) (doc : String) :
    accepted decode doc = true ↔ ∃ k, decode doc = some k ∧ k.Metadata.Name ≠ "" ∧
      HasPrefix k.ApiVersion "kustomize.toolkit.fluxcd.io" = true := by
  unfold accepted
  cases hk : decode doc with
  | none => simp
  | some k => simp

theorem processDocs_append (decode : String → Option Kustomization) (m : KMap)
    (a b : List String) :
    processDocs decode m (a ++ b) = processDocs decode (processDocs decode m a) b := by
  induction a generalizing m with
  | nil => rfl
  | cons doc rest ih =>
    show processDocs decode (processDoc decode m doc) (rest ++ b) = _
    rw [ih]
    rfl

theorem processDocs_filter (decode : String → Option Kustomization) (m : KMap)
    (docs : List String) :
    processDocs decode m docs = processDocs decode m (docs.filter (accepted decode)) := by
  induction docs generalizing m with
  | nil => rfl
  | cons doc rest ih =>
    cases ha : accepted decode doc with
    | true =>
      rw [List.filter_cons_of_pos ha]
      simp only [processDocs]
      exact ih _
    | false =>
      rw [List.filter_cons_of_neg (by simp [ha])]
      simp only [processDocs, processDoc_of_not_accepted decode m doc ha]
      exact ih _

theorem processDocs_nodup (decode : String → Option Kustomization) (m : KMap)
    (docs : List String) (h : (mapKeys m).Nodup) :
    (mapKeys (processDocs decode m docs)).Nodup := by
  induction docs generalizing m with
  | nil => exact h
  | cons doc rest ih =>
    simp only [processDocs]
    apply ih
    cases ha : accepted decode doc with
    | true =>
      obtain ⟨k, hk, -, -⟩ := (accepted_iff decode doc).mp ha
      rw [processDoc_of_accepted decode m doc k hk ha]
      exact nodup_mapKeys_mapAssign m _ _ h
    | false =>
      rw [processDoc_of_not_accepted decode m doc ha]
      exact h

theorem processDocs_name_eq_key (decode : String → Option Kustomization) (m : KMap)
    (docs : List String) (h : ∀ e ∈ m, e.2.Metadata.Name = e.1) :
    ∀ e ∈ processDocs decode m docs, e.2.Metadata.Name = e.1 := by
  induction docs generalizing m with
  | nil => exact h
  | cons doc rest ih =>
    simp only [processDocs]
    apply ih
    cases ha : accepted decode doc with
    | true =>
      obtain ⟨k, hk, -, -⟩ := (accepted_iff decode doc).mp ha
      rw [processDoc_of_accepted decode m doc k hk ha]
      intro e he
      rcases mem_mapAssign m _ _ e he with h1 | h1
      · rw [h1]
      · exact h e h1
    | false =>
      rw [processDoc_of_not_accepted decode m doc ha]
      exact h

/-- Either some accepted fragment named `n` is the last such one and its record is what the map
holds under `n` after the loop, or no accepted fragment is named `n` and the loop leaves the
entry of `n` as it was. -/
theorem processDocs_lookup (decode : String → Option Kustomization) (m : KMap)
    (docs : List String) (n : String) :
    (∃ pre doc post k, docs = pre ++ doc :: post ∧ decode doc = some k ∧
        accepted decode doc = true ∧ k.Metadata.Name = n ∧
        (∀ d ∈ post, ∀ k', decode d = some k' → accepted decode d = true →
          k'.Metadata.Name ≠ n) ∧
        mapLookup (processDocs decode m docs) n = some k) ∨
      ((∀ d ∈ docs, ∀ k', decode d = some k' → accepted decode d = true →
          k'.Metadata.Name ≠ n) ∧
        mapLookup (processDocs decode m docs) n = mapLookup m n) := by
  induction docs generalizing m with
  | nil => exact Or.inr ⟨by simp, rfl⟩
  | cons doc rest ih =>
    rcases ih (processDoc decode m doc) with ⟨pre, d, post, k, hd, hk, ha, hn, hpost, hl⟩ | ⟨hno, hl⟩
    · exact Or.inl ⟨doc :: pre, d, post, k, by rw [hd]; rfl, hk, ha, hn, hpost, hl⟩
    · cases ha : accepted decode doc with
      | true =>
        obtain ⟨k, hk, -, -⟩ := (accepted_iff decode doc).mp ha
        by_cases hn : k.Metadata.Name = n
        · refine Or.inl ⟨[], doc, rest, k, rfl, hk, ha, hn, hno, ?_⟩
          simp only [processDocs]
          rw [hl, processDoc_of_accepted decode m doc k hk ha, mapLookup_mapAssign, if_pos hn]
        · refine Or.inr ⟨?_, ?_⟩
          · intro d hdm k' hk' ha'
            rcases List.mem_cons.mp hdm with h1 | h1
            · subst h1
              rw [hk] at hk'
              cases hk'
              exact hn
            · exact hno d h1 k' hk' ha'
          · simp only [processDocs]
            rw [hl, processDoc_of_accepted decode m doc k hk ha, mapLookup_mapAssign, if_neg hn]
      | false =>
        refine Or.inr ⟨?_, ?_⟩
        · intro d hdm k' hk' ha'
          rcases List.mem_cons.mp hdm with h1 | h1
          · subst h1
            rw [ha] at ha'
            cases ha'
          · exact hno d h1 k' hk' ha'
        · simp only [processDocs]
          rw [hl, processDoc_of_not_accepted decode m doc ha]

theorem walkFn_of_ioError (decode : String → Option Kustomization) (m : KMap) (e : WalkEntry)
    (err : GoError) (h : e.ioError = some err) : walkFn decode m e = (m, some err) := by
  unfold WalkEntry.ioError WalkEntry.isYamlFile at h
  unfold walkFn
  cases he : e.err with
  | some err' =>
    rw [he] at h
    simp only [Option.some.injEq] at h
    simp only [h]
  | none =>
    rw [he] at h
    simp only at h ⊢
    by_cases hy : (!e.isDir && HasSuffix e.name ".yaml") = true
    · rw [if_pos hy] at h
      rw [if_pos hy]
      cases hr : e.readFile with
      | error err' =>
        rw [hr] at h
        simp only [Option.some.injEq] at h
        simp only [h]
      | ok content =>
        rw [hr] at h
        cases h
    · rw [if_neg hy] at h
      cases h

theorem walkFn_of_no_ioError (decode : String → Option Kustomization) (m : KMap) (e : WalkEntry)
    (h : e.ioError = none) : walkFn decode m e = (processDocs decode m e.docs, none) := by
  unfold WalkEntry.ioError WalkEntry.isYamlFile at h
  unfold walkFn WalkEntry.docs WalkEntry.isYamlFile
  cases he : e.err with
  | some err' =>
    rw [he] at h
    cases h
  | none =>
    rw [he] at h
    simp only at h ⊢
    by_cases hy : (!e.isDir && HasSuffix e.name ".yaml") = true
    · rw [if_pos hy] at h
      rw [if_pos hy, if_pos hy]
      cases hr : e.readFile with
      | error err' =>
        rw [hr] at h
        cases h
      | ok content => rfl
    · rw [if_neg hy, if_neg hy]
      rfl

/-- The walk stores the fragments processed before the first I/O error and returns that
error. -/
theorem walk_eq (decode : String → Option Kustomization) (m : KMap) (entries : List WalkEntry) :
    walk decode m entries =
      (processDocs decode m (processedDocs entries), entries.findSome? WalkEntry.ioError) := by
  induction entries generalizing m with
  | nil => rfl
  | cons e rest ih =>
    cases h : e.ioError with
    | some err =>
      simp only [walk, walkFn_of_ioError decode m e err h, processedDocs, h, List.findSome?_cons,
        processDocs]
    | none =>
      simp only [walk, walkFn_of_no_ioError decode m e h, processedDocs, h, List.findSome?_cons,
        processDocs_append, ih]

theorem processedDocs_of_no_ioError (entries : List WalkEntry)
    (h : ∀ e ∈ entries, e.ioError = none) :
    processedDocs entries = entries.flatMap WalkEntry.docs := by
  induction entries with
  | nil => rfl
  | cons e rest ih =>
    have he : e.ioError = none := h e (List.mem_cons_self _ _)
    simp only [processedDocs, he, List.flatMap_cons]
    rw [ih (fun e' he' => h e' (List.mem_cons_of_mem _ he'))]

theorem findSome_ioError_of_no_ioError (entries : List WalkEntry)
    (h : ∀ e ∈ entries, e.ioError = none) : entries.findSome? WalkEntry.ioError = none := by
  induction entries with
  | nil => rfl
  | cons e rest ih =>
    have he : e.ioError = none := h e (List.mem_cons_self _ _)
    simp only [List.findSome?_cons, he]
    exact ih (fun e' he' => h e' (List.mem_cons_of_mem _ he'))

theorem processedDocs_append_error (pre post : List WalkEntry) (e : WalkEntry) (err : GoError)
    (hpre : ∀ e' ∈ pre, e'.ioError = none) (he : e.ioError = some err) :
    processedDocs (pre ++ e :: post) = processedDocs pre ∧
      (pre ++ e :: post).findSome? WalkEntry.ioError = some err := by
  induction pre with
  | nil => simp [processedDocs, he, List.findSome?_cons]
  | cons e' rest ih =>
    have he' : e'.ioError = none := hpre e' (List.mem_cons_self _ _)
    have := ih (fun x hx => hpre x (List.mem_cons_of_mem _ hx))
    refine ⟨?_, ?_⟩
    · show processedDocs (e' :: (rest ++ e :: post)) = _
      simp only [processedDocs, he', this.1]
    · show (e' :: (rest ++ e :: post)).findSome? WalkEntry.ioError = _
      simp only [List.findSome?_cons, he', this.2]

/-! ## Lemmas on the renderer -/

theorem foldl_append_eq (acc : String) (l : List String) :
    List.foldl (fun r s => r ++ s) acc l = acc ++ String.join l := by
  induction l generalizing acc with
  | nil => simp [String.join]
  | cons a rest ih =>
    unfold String.join
    simp only [List.foldl_cons, String.empty_append]
    rw [ih (acc ++ a), ih a, String.append_assoc]

theorem join_cons (a : String) (l : List String) : String.join (a :: l) = a ++ String.join l := by
  unfold String.join
  simp only [List.foldl_cons, String.empty_append]
  exact foldl_append_eq a l

theorem join_nil : String.join [] = "" := rfl

theorem join_append (a b : List String) :
    String.join (a ++ b) = String.join a ++ String.join b := by
  induction a with
  | nil => simp [join_nil]
  | cons x rest ih => simp only [List.cons_append, join_cons, ih, String.append_assoc]

theorem writeEdges_eq (name : String) (diagram : String) (deps : List DependsOnRef) :
    writeEdges (sanitizeName name) diagram deps =
      diagram ++ String.join (deps.map fun dep => edgeLine name dep.Name) := by
  induction deps generalizing diagram with
  | nil => simp [writeEdges, join_nil]
  | cons dep rest ih =>
    simp only [writeEdges, List.map_cons, join_cons, ih, edgeLine, String.append_assoc]

theorem writeResource_eq (diagram : String) (k : Kustomization) :
    writeResource diagram k = diagram ++ resourceText k := by
  have h1 : ∀ x : String,
      " \x7b\n" ++ ("        +string name " ++ x) = " \x7b\n        +string name " ++ x := by
    intro x
    rw [← String.append_assoc]
    rfl
  have h2 : ∀ x : String,
      "\n" ++ ("        +string namespace " ++ x) = "\n        +string namespace " ++ x := by
    intro x
    rw [← String.append_assoc]
    rfl
  have h3 : ∀ x : String, "\n" ++ ("    \x7d\n" ++ x) = "\n    \x7d\n" ++ x := by
    intro x
    rw [← String.append_assoc]
    rfl
  simp only [writeResource, writeEdges_eq, resourceText, classBlock, edgeLines,
    String.append_assoc, h1, h2, h3]

theorem writeResources_eq (diagram : String) (order : List (String × Kustomization)) :
    writeResources diagram order =
      diagram ++ String.join (order.map fun e => resourceText e.2) := by
  induction order generalizing diagram with
  | nil => simp [writeResources, join_nil]
  | cons e rest ih =>
    obtain ⟨key, k⟩ := e
    simp only [writeResources, List.map_cons, join_cons, ih, writeResource_eq,
      String.append_assoc]

theorem generateMermaidDiagram_eq_join (order : List (String × Kustomization)) :
    generateMermaidDiagram order =
      "classDiagram\n" ++ String.join (order.map fun e => resourceText e.2) := by
  unfold generateMermaidDiagram
  simp only [String.empty_append, writeResources_eq]

theorem perm_pair {α : Type} (l : List α) (x y : α) (h : l.Perm [x, y]) :
    l = [x, y] ∨ l = [y, x] := by
  have hlen := h.length_eq
  match l, hlen with
  | [a, b], _ =>
    have ha : a ∈ [x, y] := h.subset (List.mem_cons_self _ _)
    simp only [List.mem_cons, List.mem_singleton, List.not_mem_nil, or_false] at ha
    rcases ha with rfl | rfl
    · have h1 : [b].Perm [y] := List.Perm.cons_inv h
      rw [List.perm_singleton.mp h1]
      exact Or.inl rfl
    · have h1 : [b].Perm [x] := List.Perm.cons_inv (h.trans (List.Perm.swap _ _ _))
      rw [List.perm_singleton.mp h1]
      exact Or.inr rfl

/-! ## Lemmas for walks with a single file -/

theorem dir_ioError_docs (d : WalkEntry) (h : d.err = none ∧ d.isDir = true) :
    d.ioError = none ∧ d.docs = [] := by
  unfold WalkEntry.ioError WalkEntry.docs WalkEntry.isYamlFile
  simp [h.1, h.2]

theorem file_ioError_docs (file : WalkEntry) (content : String)
    (h : file.err = none ∧ file.isDir = false ∧ HasSuffix file.name ".yaml" = true ∧
      file.readFile = .ok content) :
    file.ioError = none ∧ file.docs = Split content "---" := by
  unfold WalkEntry.ioError WalkEntry.docs WalkEntry.isYamlFile
  simp [h.1, h.2.1, h.2.2.1, h.2.2.2]

theorem flatMap_docs_dirs (dirs : List WalkEntry)
    (h : ∀ d ∈ dirs, d.err = none ∧ d.isDir = true) : dirs.flatMap WalkEntry.docs = [] := by
  induction dirs with
  | nil => rfl
  | cons d rest ih =>
    rw [List.flatMap_cons, (dir_ioError_docs d (h d (List.mem_cons_self _ _))).2,
      ih (fun x hx => h x (List.mem_cons_of_mem _ hx))]
    rfl

theorem findAndParseYAMLs_single_file (decode : String → Option Kustomization)
    (dirs dirs' : List WalkEntry) (file : WalkEntry) (content : String)
    (hdirs : ∀ d ∈ dirs ++ dirs', d.err = none ∧ d.isDir = true)
    (hfile : file.err = none ∧ file.isDir = false ∧ HasSuffix file.name ".yaml" = true ∧
      file.readFile = .ok content) :
    findAndParseYAMLs decode (dirs ++ file :: dirs') =
      (processDocs decode [] (Split content "---"), none) := by
  have h1 : ∀ d ∈ dirs, d.err = none ∧ d.isDir = true :=
    fun d hd => hdirs d (List.mem_append_left _ hd)
  have h2 : ∀ d ∈ dirs', d.err = none ∧ d.isDir = true :=
    fun d hd => hdirs d (List.mem_append_right _ hd)
  have hio : ∀ e ∈ dirs ++ file :: dirs', e.ioError = none := by
    intro e he
    rcases List.mem_append.mp he with h | h
    · exact (dir_ioError_docs e (h1 e h)).1
    · rcases List.mem_cons.mp h with h | h
      · rw [h]
        exact (file_ioError_docs file content hfile).1
      · exact (dir_ioError_docs e (h2 e h)).1
  unfold findAndParseYAMLs
  rw [walk_eq, processedDocs_of_no_ioError _ hio, findSome_ioError_of_no_ioError _ hio,
    List.flatMap_append, List.flatMap_cons, flatMap_docs_dirs dirs h1,
    flatMap_docs_dirs dirs' h2, (file_ioError_docs file content hfile).2, List.nil_append,
    List.append_nil]

theorem processDocs_two_accepted (decode : String → Option Kustomization) (d1 d2 : String)
    (k1 k2 : Kustomization) (h1 : decode d1 = some k1) (h2 : decode d2 = some k2)
    (hn1 : k1.Metadata.Name ≠ "") (hn2 : k2.Metadata.Name ≠ "")
    (hne : k1.Metadata.Name ≠ k2.Metadata.Name)
    (hp1 : HasPrefix k1.ApiVersion "kustomize.toolkit.fluxcd.io" = true)
    (hp2 : HasPrefix k2.ApiVersion "kustomize.toolkit.fluxcd.io" = true) :
    processDocs decode [] [d1, d2] = [(k1.Metadata.Name, k1), (k2.Metadata.Name, k2)] := by
  have a1 : accepted decode d1 = true := (accepted_iff decode d1).mpr ⟨k1, h1, hn1, hp1⟩
  have a2 : accepted decode d2 = true := (accepted_iff decode d2).mpr ⟨k2, h2, hn2, hp2⟩
  simp only [processDocs, processDoc_of_accepted decode _ d1 k1 h1 a1,
    processDoc_of_accepted decode _ d2 k2 h2 a2, mapAssign, hne, if_false]

theorem generateMermaidDiagram_pair (x y : String × Kustomization) :
    generateMermaidDiagram [x, y] = "classDiagram\n" ++ resourceText x.2 ++ resourceText y.2 := by
  rw [generateMermaidDiagram_eq_join]
  simp only [List.map_cons, List.map_nil, join_cons, join_nil, String.append_empty,
    String.append_assoc]

/-! ## The claims -/

/-- C7: `sanitizeName s` has as many characters as `s`; its `i`-th character is the `i`-th
character of `s` when that one is an ASCII letter or digit and `_` otherwise; so every character
of the result is a letter, a digit or `_`, a string of letters and digits only is returned
unchanged, and `sanitizeName "my app-1" = "my_app_1"`. -/
theorem sanitizeName_spec (s : String) :
    (sanitizeName s).length = s.length ∧
    (∀ (i : Nat) (c : Char), s.data[i]? = some c →
      (sanitizeName s).data[i]? = some (if isAsciiAlnum c then c else '_')) ∧
    (∀ c ∈ (sanitizeName s).data, isAsciiAlnum c = true ∨ c = '_') ∧
    ((∀ c ∈ s.data, isAsciiAlnum c = true) → sanitizeName s = s) ∧
    sanitizeName "my app-1" = "my_app_1" := by
  refine ⟨?_, ?_, ?_, ?_, by decide⟩
  · show (List.map sanitizeRune s.data).length = s.data.length
    exact List.length_map _ _
  · intro i c hc
    simp only [sanitizeName, List.getElem?_map, hc, Option.map_some', sanitizeRune_eq_ite]
  · intro c hc
    simp only [sanitizeName, List.mem_map] at hc
    obtain ⟨d, -, rfl⟩ := hc
    rw [sanitizeRune_eq_ite]
    by_cases hd : isAsciiAlnum d = true
    · rw [if_pos hd]
      exact Or.inl hd
    · rw [if_neg hd]
      exact Or.inr rfl
  · intro h
    apply String.ext
    simp only [sanitizeName]
    conv_rhs => rw [← List.map_id s.data]
    apply List.map_congr_left
    intro c hc
    rw [sanitizeRune_eq_ite, if_pos (h c hc)]
    rfl

/-- C7, at the name `abc1`: it consists of letters and digits only and is returned unchanged. -/
theorem sanitizeName_spec_witness : sanitizeName "abc1" = "abc1" :=
  (sanitizeName_spec "abc1").2.2.2.1 (by decide)

/-- C8: sanitisation is idempotent: `sanitizeName (sanitizeName s) = sanitizeName s`. -/
theorem sanitizeName_idempotent (s : String) :
    sanitizeName (sanitizeName s) = sanitizeName s := by
  apply String.ext
  simp only [sanitizeName, List.map_map]
  apply List.map_congr_left
  intro c _
  exact sanitizeRune_idem c

/-- C3: in the diagram of any mapping iterated in any order, a resource `k` contributes, right
after its class block, exactly one edge line per entry of its `dependsOn`, in declared order,
the `i`-th being `    <sanitizeName name> --> <sanitizeName i-th dependency> : depends on`
followed by a newline; no condition is put on the dependency names, which need not be names of
resources of the mapping. The text `after` is what the resources iterated later contribute. -/
theorem generateMermaidDiagram_edge_lines (before later : List (String × Kustomization))
    (key : String) (k : Kustomization) :
    ∃ (lines : List String) (after : String),
      lines.length = k.Spec.DependsOn.length ∧
      (∀ (i : Nat) (dep : DependsOnRef), k.Spec.DependsOn[i]? = some dep →
        lines[i]? = some ("    " ++ sanitizeName k.Metadata.Name ++ " --> " ++
          sanitizeName dep.Name ++ " : depends on\n")) ∧
      generateMermaidDiagram (before ++ (key, k) :: later) =
        generateMermaidDiagram before ++ classBlock k ++ String.join lines ++ after ∧
      generateMermaidDiagram (before ++ later) = generateMermaidDiagram before ++ after := by
  refine ⟨edgeLines k, String.join (later.map fun e => resourceText e.2), ?_, ?_, ?_, ?_⟩
  · simp [edgeLines]
  · intro i dep hdep
    simp only [edgeLines, List.getElem?_map, hdep, Option.map_some', edgeLine]
  · simp only [generateMermaidDiagram_eq_join, List.map_append, List.map_cons, join_append,
      join_cons, resourceText, String.append_assoc]
  · simp only [generateMermaidDiagram_eq_join, List.map_append, join_append,
      String.append_assoc]

/-- C4: the diagram is the header line `classDiagram` followed, for each resource in iteration
order, by its class block (sanitized identifier, raw name, raw namespace) and then its edge
lines; for an iteration order of a mapping `m` the class blocks are those of the resources of
`m`, one each. -/
theorem generateMermaidDiagram_layout (order : List (String × Kustomization)) :
    generateMermaidDiagram order =
      "classDiagram\n" ++ String.join (order.map fun e =>
        ("    class " ++ sanitizeName e.2.Metadata.Name ++ " \x7b\n        +string name " ++
          e.2.Metadata.Name ++ "\n        +string namespace " ++ e.2.Metadata.Namespace ++
          "\n    \x7d\n") ++ String.join (edgeLines e.2)) ∧
    ∀ m : KMap, order.Perm m →
      (order.map fun e => classBlock e.2).Perm (m.map fun e => classBlock e.2) ∧
      (order.map fun e => classBlock e.2).length = m.length := by
  refine ⟨?_, ?_⟩
  · rw [generateMermaidDiagram_eq_join]
    rfl
  · intro m hm
    refine ⟨hm.map _, ?_⟩
    rw [List.length_map]
    exact hm.length_eq

/-- C4, at a mapping with the two resources `a` and `b` iterated as `b`, `a`: two class
blocks. -/
theorem generateMermaidDiagram_layout_witness :
    ([("b", mkKustomization "kustomize.toolkit.fluxcd.io/v1" "b" "flux" ["a"]),
      ("a", mkKustomization "kustomize.toolkit.fluxcd.io/v1" "a" "flux" [])].map
        fun e => classBlock e.2).length = 2 :=
  ((generateMermaidDiagram_layout
    [("b", mkKustomization "kustomize.toolkit.fluxcd.io/v1" "b" "flux" ["a"]),
      ("a", mkKustomization "kustomize.toolkit.fluxcd.io/v1" "a" "flux" [])]).2
    [("a", mkKustomization "kustomize.toolkit.fluxcd.io/v1" "a" "flux" []),
      ("b", mkKustomization "kustomize.toolkit.fluxcd.io/v1" "b" "flux" ["a"])]
    (List.Perm.swap _ _ _)).2

/-- C1: when no I/O error occurs, `findAndParseYAMLs` returns no error and a mapping whose keys
are exactly the names `n` for which some fragment, in traversal order over all entries, decodes
to a record named `n` with `n` non-empty and an API version starting with
`kustomize.toolkit.fluxcd.io`; every stored record is named as its key, no key occurs twice, and
the fragments that are not accepted contribute nothing and stop nothing: the mapping is the one
obtained from the accepted fragments alone. -/
theorem findAndParseYAMLs_keys (decode : String → Option Kustomization)
    (entries : List WalkEntry) (hio : ∀ e ∈ entries, e.ioError = none) :
    (findAndParseYAMLs decode entries).2 = none ∧
    (∀ n : String, n ∈ mapKeys (findAndParseYAMLs decode entries).1 ↔
      ∃ doc ∈ entries.flatMap WalkEntry.docs, ∃ k, decode doc = some k ∧
        k.Metadata.Name = n ∧ n ≠ "" ∧
        HasPrefix k.ApiVersion "kustomize.toolkit.fluxcd.io" = true) ∧
    (∀ (n : String) (k : Kustomization), (n, k) ∈ (findAndParseYAMLs decode entries).1 →
      k.Metadata.Name = n) ∧
    (mapKeys (findAndParseYAMLs decode entries).1).Nodup ∧
    (findAndParseYAMLs decode entries).1 =
      processDocs decode [] ((entries.flatMap WalkEntry.docs).filter (accepted decode)) := by
  have hw : findAndParseYAMLs decode entries =
      (processDocs decode [] (entries.flatMap WalkEntry.docs), none) := by
    unfold findAndParseYAMLs
    rw [walk_eq, processedDocs_of_no_ioError entries hio,
      findSome_ioError_of_no_ioError entries hio]
  rw [hw]
  refine ⟨rfl, ?_, ?_, ?_, ?_⟩
  · intro n
    show n ∈ mapKeys (processDocs decode [] (entries.flatMap WalkEntry.docs)) ↔ _
    rw [mem_mapKeys_iff_lookup]
    constructor
    · rintro ⟨k, hk⟩
      rcases processDocs_lookup decode [] (entries.flatMap WalkEntry.docs) n with
        ⟨pre, doc, post, k', hd, hdec, ha, hn, -, -⟩ | ⟨-, hl⟩
      · obtain ⟨k'', hdec', hne, hpre⟩ := (accepted_iff decode doc).mp ha
        rw [hdec] at hdec'
        cases hdec'
        refine ⟨doc, ?_, k', hdec, hn, ?_, hpre⟩
        · rw [hd]
          exact List.mem_append_right _ (List.mem_cons_self _ _)
        · rw [← hn]
          exact hne
      · rw [hl] at hk
        simp [mapLookup] at hk
    · rintro ⟨doc, hmem, k, hdec, hn, hne, hpre⟩
      have ha : accepted decode doc = true :=
        (accepted_iff decode doc).mpr ⟨k, hdec, by rw [hn]; exact hne, hpre⟩
      rcases processDocs_lookup decode [] (entries.flatMap WalkEntry.docs) n with
        ⟨pre, doc', post, k', -, -, -, -, -, hl⟩ | ⟨hno, -⟩
      · exact ⟨k', hl⟩
      · exact absurd hn (hno doc hmem k hdec ha)
  · intro n k hmem
    exact processDocs_name_eq_key decode [] _ (by simp) (n, k) hmem
  · exact processDocs_nodup decode [] _ (by simp [mapKeys])
  · exact processDocs_filter decode [] _

/-- C1, at a walk over a directory and one file with an accepted document, a document of another
API group and an undecodable fragment. -/
theorem findAndParseYAMLs_keys_witness :
    (findAndParseYAMLs sampleDecode [sampleDir "d", sampleFile "x.yaml"
      "kustomize.toolkit.fluxcd.io/v1|a|flux|---apps/v1|web|prod|---garbage"]).2 = none ∧
    mapKeys (findAndParseYAMLs sampleDecode [sampleDir "d", sampleFile "x.yaml"
      "kustomize.toolkit.fluxcd.io/v1|a|flux|---apps/v1|web|prod|---garbage"]).1 = ["a"] :=
  ⟨(findAndParseYAMLs_keys sampleDecode [sampleDir "d", sampleFile "x.yaml"
      "kustomize.toolkit.fluxcd.io/v1|a|flux|---apps/v1|web|prod|---garbage"]
      (by decide)).1, by decide⟩

/-- C2: for every key `n` of the mapping returned by `findAndParseYAMLs`, the stored value is
the record `k` decoded from one fragment `doc` among the fragments processed, in traversal
order; `doc` is accepted and named `n`, no accepted fragment after it is named `n`, and `k` is
the only value under `n`: every field is the one decoded from that last fragment. -/
theorem findAndParseYAMLs_last_write_wins (decode : String → Option Kustomization)
    (entries : List WalkEntry) (n : String)
    (hn : n ∈ mapKeys (findAndParseYAMLs decode entries).1) :
    ∃ (pre : List String) (doc : String) (post : List String) (k : Kustomization),
      processedDocs entries = pre ++ doc :: post ∧
      decode doc = some k ∧ accepted decode doc = true ∧ k.Metadata.Name = n ∧
      (∀ d ∈ post, ∀ k', decode d = some k' → accepted decode d = true →
        k'.Metadata.Name ≠ n) ∧
      mapLookup (findAndParseYAMLs decode entries).1 n = some k ∧
      (∀ k', (n, k') ∈ (findAndParseYAMLs decode entries).1 → k' = k) := by
  have hw : (findAndParseYAMLs decode entries).1 =
      processDocs decode [] (processedDocs entries) := by
    unfold findAndParseYAMLs
    rw [walk_eq]
  rw [hw] at hn ⊢
  obtain ⟨k0, hk0⟩ := (mem_mapKeys_iff_lookup _ n).mp hn
  rcases processDocs_lookup decode [] (processedDocs entries) n with
    ⟨pre, doc, post, k, hd, hdec, ha, hname, hpost, hl⟩ | ⟨-, hl⟩
  · refine ⟨pre, doc, post, k, hd, hdec, ha, hname, hpost, hl, ?_⟩
    intro k' hmem
    have hnd : (mapKeys (processDocs decode [] (processedDocs entries))).Nodup :=
      processDocs_nodup decode [] _ (by simp [mapKeys])
    have := mapLookup_of_mem _ hnd n k' hmem
    rw [hl] at this
    exact (Option.some.inj this).symm
  · rw [hl] at hk0
    simp [mapLookup] at hk0

/-- C2, at two files that both define `a`: the record of the second file is stored. -/
theorem findAndParseYAMLs_last_write_wins_witness :
    ∃ (pre : List String) (doc : String) (post : List String) (k : Kustomization),
      processedDocs [sampleFile "x.yaml" "kustomize.toolkit.fluxcd.io/v1|a|one|b",
        sampleFile "y.yaml" "kustomize.toolkit.fluxcd.io/v1|a|two|"] = pre ++ doc :: post ∧
      sampleDecode doc = some k ∧ accepted sampleDecode doc = true ∧ k.Metadata.Name = "a" ∧
      (∀ d ∈ post, ∀ k', sampleDecode d = some k' → accepted sampleDecode d = true →
        k'.Metadata.Name ≠ "a") ∧
      mapLookup (findAndParseYAMLs sampleDecode
        [sampleFile "x.yaml" "kustomize.toolkit.fluxcd.io/v1|a|one|b",
          sampleFile "y.yaml" "kustomize.toolkit.fluxcd.io/v1|a|two|"]).1 "a" = some k ∧
      (∀ k', ("a", k') ∈ (findAndParseYAMLs sampleDecode
        [sampleFile "x.yaml" "kustomize.toolkit.fluxcd.io/v1|a|one|b",
          sampleFile "y.yaml" "kustomize.toolkit.fluxcd.io/v1|a|two|"]).1 → k' = k) :=
  findAndParseYAMLs_last_write_wins sampleDecode
    [sampleFile "x.yaml" "kustomize.toolkit.fluxcd.io/v1|a|one|b",
      sampleFile "y.yaml" "kustomize.toolkit.fluxcd.io/v1|a|two|"] "a" (by decide)

/-- C5: `generateMermaidDiagram` of the empty mapping is exactly the header line; when none of
the fragments processed by `findAndParseYAMLs` is accepted, the returned mapping is empty and
the diagram rendered from it, in any iteration order, is exactly the header line. -/
theorem generateMermaidDiagram_empty (decode : String → Option Kustomization)
    (entries : List WalkEntry) (order : List (String × Kustomization))
    (hnone : ∀ doc ∈ processedDocs entries, accepted decode doc = false)
    (horder : order.Perm (findAndParseYAMLs decode entries).1) :
    generateMermaidDiagram [] = "classDiagram\n" ∧
    (findAndParseYAMLs decode entries).1 = [] ∧
    generateMermaidDiagram order = "classDiagram\n" := by
  have hw : (findAndParseYAMLs decode entries).1 = [] := by
    unfold findAndParseYAMLs
    rw [walk_eq]
    show processDocs decode [] (processedDocs entries) = []
    rw [processDocs_filter]
    have : (processedDocs entries).filter (accepted decode) = [] := by
      rw [List.filter_eq_nil_iff]
      intro doc hdoc
      rw [hnone doc hdoc]
      simp
    rw [this]
    rfl
  rw [hw] at horder
  rw [List.perm_nil.mp horder]
  exact ⟨rfl, hw, rfl⟩

/-- C5, at a walk over a directory, a `.yml` file and a `.yaml` file without a Flux
Kustomization. -/
theorem generateMermaidDiagram_empty_witness :
    generateMermaidDiagram [] = "classDiagram\n" ∧
    (findAndParseYAMLs sampleDecode [sampleDir "d",
      sampleFile "k.yml" "kustomize.toolkit.fluxcd.io/v1|a|flux|",
      sampleFile "x.yaml" "apps/v1|web|prod|---garbage"]).1 = [] ∧
    generateMermaidDiagram [] = "classDiagram\n" :=
  generateMermaidDiagram_empty sampleDecode [sampleDir "d",
      sampleFile "k.yml" "kustomize.toolkit.fluxcd.io/v1|a|flux|",
      sampleFile "x.yaml" "apps/v1|web|prod|---garbage"] [] (by decide) (by decide)

/-- C6, as stated, fails: the walk meets an unreadable `.yaml` file after a file with one
accepted document; `findAndParseYAMLs` returns the error and, with it, the mapping collected
before the failure, which still holds the record `a`. -/
theorem findAndParseYAMLs_partial_result_returned :
    findAndParseYAMLs sampleDecode
      [sampleFile "x.yaml" "kustomize.toolkit.fluxcd.io/v1|a|flux|", sampleUnreadable "y.yaml"] =
      ([("a", mkKustomization "kustomize.toolkit.fluxcd.io/v1" "a" "flux" [])],
        some { msg := "permission denied" }) ∧
    (findAndParseYAMLs sampleDecode
      [sampleFile "x.yaml" "kustomize.toolkit.fluxcd.io/v1|a|flux|",
        sampleUnreadable "y.yaml"]).1 ≠ [] := by
  decide

/-- C6, amended: when the first I/O error of the walk occurs at the entry `e` (an entry that
cannot be visited or a `.yaml` file that cannot be read), `findAndParseYAMLs` returns that error
whatever entries come later (none of them is processed), together with the mapping collected
from the entries before `e`; `main` then prints the error and exits with status 1 without
rendering or writing a diagram. -/
theorem findAndParseYAMLs_ioError_aborts (decode : String → Option Kustomization)
    (pre later : List WalkEntry) (e : WalkEntry) (err : GoError)
    (hpre : ∀ e' ∈ pre, e'.ioError = none) (he : e.ioError = some err) :
    findAndParseYAMLs decode (pre ++ e :: later) =
      ((findAndParseYAMLs decode pre).1, some err) ∧
    (findAndParseYAMLs decode pre).1 = processDocs decode [] (pre.flatMap WalkEntry.docs) ∧
    ∀ (walkOf : String → List WalkEntry) (rangeOrder : KMap → List (String × Kustomization))
      (writeFile : String → String → Option GoError) (sourceDir outputFile : String),
      sourceDir ≠ "" → outputFile ≠ "" → walkOf sourceDir = pre ++ e :: later →
      main decode walkOf rangeOrder writeFile sourceDir outputFile =
        { stdout := "Error processing YAML files: " ++ err.msg ++ "\n", exitCode := 1,
          writeFileCall := none } := by
  have hw : findAndParseYAMLs decode (pre ++ e :: later) =
      ((findAndParseYAMLs decode pre).1, some err) := by
    unfold findAndParseYAMLs
    rw [walk_eq, walk_eq, (processedDocs_append_error pre later e err hpre he).1,
      (processedDocs_append_error pre later e err hpre he).2]
  refine ⟨hw, ?_, ?_⟩
  · unfold findAndParseYAMLs
    rw [walk_eq, processedDocs_of_no_ioError pre hpre]
  · intro walkOf rangeOrder writeFile sourceDir outputFile hs ho hwalk
    unfold main
    rw [if_neg (by simp [hs, ho]), hwalk, hw]

/-- C6, amended, at a walk whose second file is unreadable and whose third file is never
read. -/
theorem findAndParseYAMLs_ioError_aborts_witness :
    findAndParseYAMLs sampleDecode
      ([sampleDir "d", sampleFile "x.yaml" "kustomize.toolkit.fluxcd.io/v1|a|flux|"] ++
        sampleUnreadable "y.yaml" ::
          [sampleFile "z.yaml" "kustomize.toolkit.fluxcd.io/v1|c|flux|"]) =
      ((findAndParseYAMLs sampleDecode
        [sampleDir "d", sampleFile "x.yaml" "kustomize.toolkit.fluxcd.io/v1|a|flux|"]).1,
        some { msg := "permission denied" }) :=
  (findAndParseYAMLs_ioError_aborts sampleDecode
    [sampleDir "d", sampleFile "x.yaml" "kustomize.toolkit.fluxcd.io/v1|a|flux|"]
    [sampleFile "z.yaml" "kustomize.toolkit.fluxcd.io/v1|c|flux|"]
    (sampleUnreadable "y.yaml") { msg := "permission denied" } (by decide) (by decide)).1

/-- C9: a walk whose only file (besides directories) has a content that `---` splits into two
fragments decoding to the Kustomizations `a` (no `dependsOn`) and `b` (`dependsOn` `a`), both of
the Flux API group, yields no error and a mapping whose diagram, in either iteration order, is
the header, the class blocks of `a` and `b`, and the single edge line
`    b --> a : depends on` right after the class block of `b`. -/
theorem roundtrip_two_documents (decode : String → Option Kustomization)
    (dirs dirs' : List WalkEntry) (file : WalkEntry) (content d1 d2 : String)
    (ka kb : Kustomization) (order : List (String × Kustomization))
    (hdirs : ∀ d ∈ dirs ++ dirs', d.err = none ∧ d.isDir = true)
    (hfile : file.err = none ∧ file.isDir = false ∧ HasSuffix file.name ".yaml" = true ∧
      file.readFile = .ok content)
    (hsplit : Split content "---" = [d1, d2])
    (hda : decode d1 = some ka) (hdb : decode d2 = some kb)
    (hna : ka.Metadata.Name = "a") (hnb : kb.Metadata.Name = "b")
    (hdepa : ka.Spec.DependsOn = []) (hdepb : kb.Spec.DependsOn = [{ Name := "a" }])
    (hapia : HasPrefix ka.ApiVersion "kustomize.toolkit.fluxcd.io" = true)
    (hapib : HasPrefix kb.ApiVersion "kustomize.toolkit.fluxcd.io" = true)
    (horder : order.Perm (findAndParseYAMLs decode (dirs ++ file :: dirs')).1) :
    (findAndParseYAMLs decode (dirs ++ file :: dirs')).2 = none ∧
    (generateMermaidDiagram order =
        "classDiagram\n" ++
        ("    class a \x7b\n        +string name a\n        +string namespace " ++
          ka.Metadata.Namespace ++ "\n    \x7d\n") ++
        ("    class b \x7b\n        +string name b\n        +string namespace " ++
          kb.Metadata.Namespace ++ "\n    \x7d\n") ++
        "    b --> a : depends on\n" ∨
      generateMermaidDiagram order =
        "classDiagram\n" ++
        ("    class b \x7b\n        +string name b\n        +string namespace " ++
          kb.Metadata.Namespace ++ "\n    \x7d\n") ++
        "    b --> a : depends on\n" ++
        ("    class a \x7b\n        +string name a\n        +string namespace " ++
          ka.Metadata.Namespace ++ "\n    \x7d\n")) := by
  have hw := findAndParseYAMLs_single_file decode dirs dirs' file content hdirs hfile
  rw [hsplit, processDocs_two_accepted decode d1 d2 ka kb hda hdb (by rw [hna]; decide)
    (by rw [hnb]; decide) (by rw [hna, hnb]; decide) hapia hapib] at hw
  rw [hw] at horder ⊢
  have hca : classBlock ka = "    class a \x7b\n        +string name a\n        +string namespace "
      ++ ka.Metadata.Namespace ++ "\n    \x7d\n" := by
    unfold classBlock
    rw [hna]
    rfl
  have hcb : classBlock kb = "    class b \x7b\n        +string name b\n        +string namespace "
      ++ kb.Metadata.Namespace ++ "\n    \x7d\n" := by
    unfold classBlock
    rw [hnb]
    rfl
  have hra : resourceText ka = classBlock ka := by
    unfold resourceText edgeLines
    rw [hdepa]
    exact String.append_empty _
  have hrb : resourceText kb = classBlock kb ++ "    b --> a : depends on\n" := by
    unfold resourceText edgeLines
    rw [hdepb, hnb]
    rfl
  refine ⟨rfl, ?_⟩
  rcases perm_pair order _ _ horder with h | h
  · left
    rw [h, generateMermaidDiagram_pair, hra, hrb, hca, hcb]
    simp only [String.append_assoc]
  · right
    rw [h, generateMermaidDiagram_pair, hra, hrb, hca, hcb]
    simp only [String.append_assoc]

/-- C9, at a directory with the file `k.yaml` holding the documents `a` and `b`, the mapping
being iterated as `b`, `a`. -/
theorem roundtrip_two_documents_witness :
    (findAndParseYAMLs sampleDecode ([sampleDir "d"] ++ sampleFile "k.yaml"
      "kustomize.toolkit.fluxcd.io/v1|a|flux|---kustomize.toolkit.fluxcd.io/v1|b|flux|a"
        :: [])).2 = none ∧
    (generateMermaidDiagram
        [("b", mkKustomization "kustomize.toolkit.fluxcd.io/v1" "b" "flux" ["a"]),
          ("a", mkKustomization "kustomize.toolkit.fluxcd.io/v1" "a" "flux" [])] =
        "classDiagram\n" ++
        ("    class a \x7b\n        +string name a\n        +string namespace " ++
          "flux" ++ "\n    \x7d\n") ++
        ("    class b \x7b\n        +string name b\n        +string namespace " ++
          "flux" ++ "\n    \x7d\n") ++
        "    b --> a : depends on\n" ∨
      generateMermaidDiagram
        [("b", mkKustomization "kustomize.toolkit.fluxcd.io/v1" "b" "flux" ["a"]),
          ("a", mkKustomization "kustomize.toolkit.fluxcd.io/v1" "a" "flux" [])] =
        "classDiagram\n" ++
        ("    class b \x7b\n        +string name b\n        +string namespace " ++
          "flux" ++ "\n    \x7d\n") ++
        "    b --> a : depends on\n" ++
        ("    class a \x7b\n        +string name a\n        +string namespace " ++
          "flux" ++ "\n    \x7d\n")) :=
  roundtrip_two_documents sampleDecode [sampleDir "d"] []
    (sampleFile "k.yaml"
      "kustomize.toolkit.fluxcd.io/v1|a|flux|---kustomize.toolkit.fluxcd.io/v1|b|flux|a")
    "kustomize.toolkit.fluxcd.io/v1|a|flux|---kustomize.toolkit.fluxcd.io/v1|b|flux|a"
    "kustomize.toolkit.fluxcd.io/v1|a|flux|" "kustomize.toolkit.fluxcd.io/v1|b|flux|a"
    (mkKustomization "kustomize.toolkit.fluxcd.io/v1" "a" "flux" [])
    (mkKustomization "kustomize.toolkit.fluxcd.io/v1" "b" "flux" ["a"])
    [("b", mkKustomization "kustomize.toolkit.fluxcd.io/v1" "b" "flux" ["a"]),
      ("a", mkKustomization "kustomize.toolkit.fluxcd.io/v1" "a" "flux" [])]
    (by decide) ⟨rfl, rfl, by decide, rfl⟩ (by decide) (by decide) (by decide) rfl rfl rfl rfl
    (by decide) (by decide) (by decide)

/-- C10: `sanitizeName` is not injective and the mapping is keyed by the raw name: the names
`a-b` and `a_b` differ and have the same sanitized form `a_b`; two accepted documents with these
names in one file are kept by `findAndParseYAMLs` as two entries, and in either iteration order
the diagram declares the class identifier `a_b` twice; an edge to either name is written with
the same target `a_b`. -/
theorem sanitizeName_collision (decode : String → Option Kustomization)
    (dirs dirs' : List WalkEntry) (file : WalkEntry) (content d1 d2 : String)
    (k1 k2 : Kustomization) (order : List (String × Kustomization))
    (hdirs : ∀ d ∈ dirs ++ dirs', d.err = none ∧ d.isDir = true)
    (hfile : file.err = none ∧ file.isDir = false ∧ HasSuffix file.name ".yaml" = true ∧
      file.readFile = .ok content)
    (hsplit : Split content "---" = [d1, d2])
    (hd1 : decode d1 = some k1) (hd2 : decode d2 = some k2)
    (hn1 : k1.Metadata.Name = "a-b") (hn2 : k2.Metadata.Name = "a_b")
    (hapi1 : HasPrefix k1.ApiVersion "kustomize.toolkit.fluxcd.io" = true)
    (hapi2 : HasPrefix k2.ApiVersion "kustomize.toolkit.fluxcd.io" = true)
    (horder : order.Perm (findAndParseYAMLs decode (dirs ++ file :: dirs')).1) :
    "a-b" ≠ "a_b" ∧ sanitizeName "a-b" = "a_b" ∧ sanitizeName "a_b" = "a_b" ∧
    (findAndParseYAMLs decode (dirs ++ file :: dirs')).1.length = 2 ∧
    mapLookup (findAndParseYAMLs decode (dirs ++ file :: dirs')).1 "a-b" = some k1 ∧
    mapLookup (findAndParseYAMLs decode (dirs ++ file :: dirs')).1 "a_b" = some k2 ∧
    (generateMermaidDiagram order =
        "classDiagram\n" ++
        ("    class a_b \x7b\n        +string name a-b\n        +string namespace " ++
          k1.Metadata.Namespace ++ "\n    \x7d\n") ++ String.join (edgeLines k1) ++
        ("    class a_b \x7b\n        +string name a_b\n        +string namespace " ++
          k2.Metadata.Namespace ++ "\n    \x7d\n") ++ String.join (edgeLines k2) ∨
      generateMermaidDiagram order =
        "classDiagram\n" ++
        ("    class a_b \x7b\n        +string name a_b\n        +string namespace " ++
          k2.Metadata.Namespace ++ "\n    \x7d\n") ++ String.join (edgeLines k2) ++
        ("    class a_b \x7b\n        +string name a-b\n        +string namespace " ++
          k1.Metadata.Namespace ++ "\n    \x7d\n") ++ String.join (edgeLines k1)) ∧
    ∀ (safeName diagram : String),
      writeEdges safeName diagram [{ Name := "a-b" }] =
        diagram ++ ("    " ++ safeName ++ " --> " ++ "a_b" ++ " : depends on\n") ∧
      writeEdges safeName diagram [{ Name := "a_b" }] =
        diagram ++ ("    " ++ safeName ++ " --> " ++ "a_b" ++ " : depends on\n") := by
  have hw := findAndParseYAMLs_single_file decode dirs dirs' file content hdirs hfile
  rw [hsplit, processDocs_two_accepted decode d1 d2 k1 k2 hd1 hd2 (by rw [hn1]; decide)
    (by rw [hn2]; decide) (by rw [hn1, hn2]; decide) hapi1 hapi2] at hw
  rw [hw] at horder ⊢
  have hc1 : classBlock k1 =
      "    class a_b \x7b\n        +string name a-b\n        +string namespace "
      ++ k1.Metadata.Namespace ++ "\n    \x7d\n" := by
    unfold classBlock
    rw [hn1]
    rfl
  have hc2 : classBlock k2 =
      "    class a_b \x7b\n        +string name a_b\n        +string namespace "
      ++ k2.Metadata.Namespace ++ "\n    \x7d\n" := by
    unfold classBlock
    rw [hn2]
    rfl
  refine ⟨by decide, by decide, by decide, rfl, ?_, ?_, ?_, ?_⟩
  · simp [mapLookup, hn1]
  · have hne : ¬ k1.Metadata.Name = "a_b" := by rw [hn1]; decide
    simp [mapLookup, hn2, hne]
  · rcases perm_pair order _ _ horder with h | h
    · left
      rw [h, generateMermaidDiagram_pair]
      simp only [resourceText, hc1, hc2, String.append_assoc]
    · right
      rw [h, generateMermaidDiagram_pair]
      simp only [resourceText, hc1, hc2, String.append_assoc]
  · intro safeName diagram
    exact ⟨rfl, rfl⟩

/-- C10, at a directory with the file `k.yaml` holding the documents `a-b` and `a_b`. -/
theorem sanitizeName_collision_witness :
    mapKeys (findAndParseYAMLs sampleDecode ([sampleDir "d"] ++ sampleFile "k.yaml"
      "kustomize.toolkit.fluxcd.io/v1|a-b|flux|---kustomize.toolkit.fluxcd.io/v1|a_b|flux|a-b"
        :: [])).1 = ["a-b", "a_b"] ∧
    (findAndParseYAMLs sampleDecode ([sampleDir "d"] ++ sampleFile "k.yaml"
      "kustomize.toolkit.fluxcd.io/v1|a-b|flux|---kustomize.toolkit.fluxcd.io/v1|a_b|flux|a-b"
        :: [])).1.length = 2 ∧
    generateMermaidDiagram (findAndParseYAMLs sampleDecode ([sampleDir "d"] ++ sampleFile
      "k.yaml"
      "kustomize.toolkit.fluxcd.io/v1|a-b|flux|---kustomize.toolkit.fluxcd.io/v1|a_b|flux|a-b"
        :: [])).1 =
      "classDiagram\n    class a_b \x7b\n        +string name a-b\n        +string namespace flux\n    \x7d\n    class a_b \x7b\n        +string name a_b\n        +string namespace flux\n    \x7d\n    a_b --> a_b : depends on\n" :=
  ⟨by decide,
    (sanitizeName_collision sampleDecode [sampleDir "d"] []
      (sampleFile "k.yaml"
        "kustomize.toolkit.fluxcd.io/v1|a-b|flux|---kustomize.toolkit.fluxcd.io/v1|a_b|flux|a-b")
      "kustomize.toolkit.fluxcd.io/v1|a-b|flux|---kustomize.toolkit.fluxcd.io/v1|a_b|flux|a-b"
      "kustomize.toolkit.fluxcd.io/v1|a-b|flux|" "kustomize.toolkit.fluxcd.io/v1|a_b|flux|a-b"
      (mkKustomization "kustomize.toolkit.fluxcd.io/v1" "a-b" "flux" [])
      (mkKustomization "kustomize.toolkit.fluxcd.io/v1" "a_b" "flux" ["a-b"])
      [("a-b", mkKustomization "kustomize.toolkit.fluxcd.io/v1" "a-b" "flux" []),
        ("a_b", mkKustomization "kustomize.toolkit.fluxcd.io/v1" "a_b" "flux" ["a-b"])]
      (by decide) ⟨rfl, rfl, by decide, rfl⟩ (by decide) (by decide) (by decide) rfl rfl
      (by decide) (by decide) (by decide)).2.2.2.1,
    rfl⟩

end Fluxkustgraph
